import Mathlib

/-!
Verification development for the streaming TTS pipeline of the repository.

The relevant Python modules are shallowly embedded:

* `src/open_llm_vtuber/conversations/tts_manager.py` — the merge buffer of
  `TTSTaskManager` (`_speak_with_merge`, `_flush_merge_buffer`,
  `flush_remaining`) and the ordered-delivery queue
  (`_process_payload_queue`).
* `src/open_llm_vtuber/utils/sentence_divider.py` — `comma_splitter`,
  `segment_text_by_regex`, the dual-stream buffer and `process_stream`.
* `src/open_llm_vtuber/tts/step_tts.py` — `StepTTSRateLimiter` and the
  retry loop of `generate_audio`.
* `src/open_llm_vtuber/agent/transformers.py` — the `tts_filter` stage.

Python strings are embedded as `String` / `List Char` (Python indexing is
by code point, as is `List Char`); machine-independent integer arithmetic
as `Nat`; the float arithmetic of `time.time()` as exact rationals `ℚ`.
-/

namespace TTSManager

/-- One buffered entry of `TTSTaskManager._merge_buffer`.  The Python tuple
is `(tts_text, display_text, actions)`; the display text and actions are
opaque payload data that the buffering and flush arithmetic never inspects,
so they are embedded as an opaque second component `α`. -/
abbrev BufferItem (α : Type) := String × α

/-- `char_counts = [len(item[0]) for item in buffer_copy]` in
`_flush_merge_buffer`. -/
def charCounts {α : Type} (buffer : List (BufferItem α)) : List Nat :=
  buffer.map (fun item => item.1.length)

/-- The per-sentence duration computed in `_flush_merge_buffer`:
`char_ratio = char_counts[i] / total_chars if total_chars > 0 else 1.0 / len(buffer_copy)`
and `sentence_duration_ms = int(total_duration_ms * char_ratio)`.
Python evaluates this with floats; the embedding uses exact arithmetic, in
which the truncation `int(...)` of the nonnegative quotient is natural
floor division. -/
def sentenceDurationMs (totalDurationMs charCount totalChars bufferLen : Nat) : Nat :=
  if 0 < totalChars then totalDurationMs * charCount / totalChars
  else totalDurationMs / bufferLen

/-- The `merge_info` timing fields of one emitted payload of
`_flush_merge_buffer`. -/
structure MergeInfo where
  sentenceIndex : Nat
  sentenceDuration : Nat
  delayBeforeShowMs : Nat
  totalDuration : Nat
deriving Repr, DecidableEq

/-- The payload-emission loop of `_flush_merge_buffer`: iterates over the
buffered sentences with running index `i` and `current_time_offset`,
emitting each sentence's timing information and advancing the offset by the
sentence's duration. -/
def flushLoop (totalDurationMs totalChars bufferLen : Nat) :
    List (BufferItem α) → Nat → Nat → List MergeInfo
  | [], _, _ => []
  | item :: rest, i, offset =>
    let d := sentenceDurationMs totalDurationMs item.1.length totalChars bufferLen
    ⟨i, d, offset, totalDurationMs⟩ ::
      flushLoop totalDurationMs totalChars bufferLen rest (i + 1) (offset + d)

/-- `_flush_merge_buffer`, restricted to the timing information of the
payloads it emits for a measured total audio duration `totalDurationMs`. -/
def flushMergeBuffer (totalDurationMs : Nat) (buffer : List (BufferItem α)) :
    List MergeInfo :=
  flushLoop totalDurationMs (charCounts buffer).sum buffer.length buffer 0 0

/-- State of the progressive merge machinery of `TTSTaskManager`. -/
structure MergeState (α : Type) where
  progressiveSentenceCount : Nat
  mergeBuffer : List (BufferItem α)
  currentRoundMax : Nat
deriving Repr, DecidableEq

/-- The state at the start of a fresh conversation turn: `__init__` sets
`_merge_buffer = []` and `_current_round_max = 1`, and
`reset_for_new_conversation` sets `_progressive_sentence_count = 0`. -/
def initMergeState : MergeState α := ⟨0, [], 1⟩

/-- `_speak_with_merge`: increments the progressive sentence counter, locks
`current_round_max` when a new round begins (empty buffer), appends the
sentence, and flushes once the buffer reaches the round maximum.  Returns
the new state together with the flushed buffers (zero or one of them). -/
def speakWithMerge (mergeMaxSentences : Nat) (progressiveEnabled : Bool)
    (st : MergeState α) (ttsText : String) (extra : α) :
    MergeState α × List (List (BufferItem α)) :=
  let count := st.progressiveSentenceCount + 1
  let roundMax :=
    if st.mergeBuffer.length = 0 then
      if progressiveEnabled then min count mergeMaxSentences else mergeMaxSentences
    else st.currentRoundMax
  let buffer := st.mergeBuffer ++ [(ttsText, extra)]
  if roundMax ≤ buffer.length then
    (⟨count, [], roundMax⟩, [buffer])
  else
    (⟨count, buffer, roundMax⟩, [])

/-- Feeding a whole turn's sentences through `_speak_with_merge` in order,
collecting the flushed groups. -/
def runMergeTurn (cap : Nat) (prog : Bool) (st : MergeState α) :
    List (BufferItem α) → MergeState α × List (List (BufferItem α))
  | [] => (st, [])
  | (t, e) :: rest =>
    let r1 := speakWithMerge cap prog st t e
    let r2 := runMergeTurn cap prog r1.1 rest
    (r2.1, r1.2 ++ r2.2)

/-- `flush_remaining`: at turn end, flush the residual buffer
unconditionally if it is nonempty. -/
def flushRemaining (st : MergeState α) : MergeState α × List (List (BufferItem α)) :=
  if st.mergeBuffer.isEmpty then (st, [])
  else ({ st with mergeBuffer := [] }, [st.mergeBuffer])

theorem flushLoop_map_duration {α : Type} (D T L : Nat) (buffer : List (BufferItem α)) :
    ∀ i offset, ((flushLoop D T L buffer i offset).map MergeInfo.sentenceDuration)
      = buffer.map (fun item => sentenceDurationMs D item.1.length T L) := by
  induction buffer with
  | nil => intro i offset; rfl
  | cons item rest ih =>
    intro i offset
    simp only [flushLoop, List.map_cons, ih]

theorem nat_div_add_div_le (a b c : Nat) (hc : 0 < c) :
    a / c + b / c ≤ (a + b) / c := by
  rw [Nat.le_div_iff_mul_le hc, Nat.add_mul]
  exact Nat.add_le_add (Nat.div_mul_le_self a c) (Nat.div_mul_le_self b c)

theorem sum_map_div_le (D T : Nat) (hT : 0 < T) (counts : List Nat) :
    (counts.map (fun c => D * c / T)).sum ≤ D * counts.sum / T := by
  induction counts with
  | nil => simp
  | cons c rest ih =>
    simp only [List.map_cons, List.sum_cons]
    calc D * c / T + (rest.map (fun c => D * c / T)).sum
        ≤ D * c / T + D * rest.sum / T := Nat.add_le_add_left ih _
      _ ≤ (D * c + D * rest.sum) / T := nat_div_add_div_le _ _ _ hT
      _ = D * (c + rest.sum) / T := by rw [Nat.mul_add]

theorem sum_map_const (k : Nat) (l : List Nat) :
    (l.map (fun _ => k)).sum = l.length * k := by
  induction l with
  | nil => simp
  | cons c rest ih =>
    simp only [List.map_cons, List.sum_cons, List.length_cons, ih]
    ring

theorem sum_map_const_div_le (D : Nat) (counts : List Nat) :
    (counts.map (fun _ => D / counts.length)).sum ≤ D := by
  rw [sum_map_const]
  calc counts.length * (D / counts.length)
      = D / counts.length * counts.length := Nat.mul_comm _ _
    _ ≤ D := Nat.div_mul_le_self _ _

/-- Claim C1, counterexample: for a merge flush of two one-character
sentences with measured total duration `D = 1` ms, the emitted
`sentence_duration_ms` values are `0` and `0`, so they do not sum to `D`:
the final sentence does not absorb the rounding remainder. -/
theorem flush_durations_sum_counterexample :
    ((flushMergeBuffer 1 [("a", ()), ("b", ())]).map MergeInfo.sentenceDuration).sum ≠ 1 := by
  decide

/-- Claim C1, amended: for every merge flush of `N` sentences with
character counts `c_1..c_N` (total `T`) and measured total duration `D`,
every emitted payload (including the final one) has
`sentence_duration_ms_i = ⌊D * c_i / T⌋` (when `T > 0`; `⌊D / N⌋` when all
sentences are empty), and the values sum to at most `D` — the final
sentence does not absorb the rounding remainder, so the sum may fall short
of `D`. -/
theorem flush_duration_allocation {α : Type} (D : Nat) (buffer : List (BufferItem α))
    (h : buffer ≠ []) :
    ((flushMergeBuffer D buffer).map MergeInfo.sentenceDuration)
      = buffer.map
          (fun item => sentenceDurationMs D item.1.length (charCounts buffer).sum buffer.length)
    ∧ ((flushMergeBuffer D buffer).map MergeInfo.sentenceDuration).sum ≤ D := by
  have hmap := flushLoop_map_duration D (charCounts buffer).sum buffer.length buffer 0 0
  refine ⟨hmap, ?_⟩
  rw [flushMergeBuffer, hmap]
  have key : buffer.map
      (fun item => sentenceDurationMs D item.1.length (charCounts buffer).sum buffer.length)
      = (charCounts buffer).map
          (fun c => sentenceDurationMs D c (charCounts buffer).sum buffer.length) := by
    unfold charCounts
    rw [List.map_map]
    rfl
  rw [key]
  by_cases hT : 0 < (charCounts buffer).sum
  · have heq : (charCounts buffer).map
        (fun c => sentenceDurationMs D c (charCounts buffer).sum buffer.length)
        = (charCounts buffer).map (fun c => D * c / (charCounts buffer).sum) := by
      simp only [sentenceDurationMs, if_pos hT]
    rw [heq]
    calc ((charCounts buffer).map (fun c => D * c / (charCounts buffer).sum)).sum
        ≤ D * (charCounts buffer).sum / (charCounts buffer).sum :=
          sum_map_div_le D _ hT (charCounts buffer)
      _ = D := Nat.mul_div_cancel D hT
  · have heq : (charCounts buffer).map
        (fun c => sentenceDurationMs D c (charCounts buffer).sum buffer.length)
        = (charCounts buffer).map (fun _ => D / buffer.length) := by
      simp only [sentenceDurationMs, if_neg hT]
    rw [heq]
    have hlen : buffer.length = (charCounts buffer).length := by simp [charCounts]
    rw [hlen]
    exact sum_map_const_div_le D (charCounts buffer)

theorem flush_duration_allocation_witness :
    ([("ab", ()), ("c", ())] : List (BufferItem Unit)) ≠ []
    ∧ (((flushMergeBuffer 7 ([("ab", ()), ("c", ())] : List (BufferItem Unit))).map
          MergeInfo.sentenceDuration)
        = ([("ab", ()), ("c", ())] : List (BufferItem Unit)).map
            (fun item => sentenceDurationMs 7 item.1.length
              (charCounts ([("ab", ()), ("c", ())] : List (BufferItem Unit))).sum
              ([("ab", ()), ("c", ())] : List (BufferItem Unit)).length)
      ∧ (((flushMergeBuffer 7 ([("ab", ()), ("c", ())] : List (BufferItem Unit))).map
            MergeInfo.sentenceDuration)).sum ≤ 7) :=
  ⟨by decide, flush_duration_allocation 7 [("ab", ()), ("c", ())] (by decide)⟩

/-- Claim C2: in a fresh turn with progressive merge enabled and cap 3,
the sentences A,B,C,D,E,F,G produce flushes `A | B,C | D,E,F` with the
residual `G` flushed at turn end; and whenever a merge round begins with an
empty buffer, the round locks
`current_round_max = min(progressive_sentence_count, 3)` (the counter
having just been incremented for the incoming sentence). -/
theorem progressive_merge_ramp :
    ((runMergeTurn 3 true (initMergeState : MergeState Unit)
        [("A", ()), ("B", ()), ("C", ()), ("D", ()), ("E", ()), ("F", ()), ("G", ())]).2
      ++ (flushRemaining (runMergeTurn 3 true (initMergeState : MergeState Unit)
            [("A", ()), ("B", ()), ("C", ()), ("D", ()), ("E", ()), ("F", ()),
             ("G", ())]).1).2
      = [[("A", ())], [("B", ()), ("C", ())], [("D", ()), ("E", ()), ("F", ())],
         [("G", ())]])
    ∧ ∀ (st : MergeState Unit) (t : String) (e : Unit),
        st.mergeBuffer = [] →
        (speakWithMerge 3 true st t e).1.currentRoundMax
          = min (st.progressiveSentenceCount + 1) 3 := by
  constructor
  · decide
  · intro st t e hbuf
    simp only [speakWithMerge, hbuf, List.length_nil]
    split_ifs <;> simp_all

theorem progressive_merge_ramp_witness :
    (initMergeState : MergeState Unit).mergeBuffer = []
    ∧ (speakWithMerge 3 true (initMergeState : MergeState Unit) "A" ()).1.currentRoundMax
        = min ((initMergeState : MergeState Unit).progressiveSentenceCount + 1) 3 :=
  ⟨rfl, progressive_merge_ramp.2 initMergeState "A" () rfl⟩

end TTSManager

namespace PayloadQueue

variable {α : Type}

/-- `buffered_payloads.pop(key)` on the Python dict of
`_process_payload_queue`, embedded on an association list: remove the first
binding of `key`, returning its value and the remaining bindings. -/
def popKey (key : Nat) : List (Nat × α) → Option (α × List (Nat × α))
  | [] => none
  | (k, v) :: rest =>
    if k = key then some (v, rest)
    else
      match popKey key rest with
      | some (a, l) => some (a, (k, v) :: l)
      | none => none

/-- The inner `while self._next_sequence_to_send in buffered_payloads`
loop of `_process_payload_queue`: send the next payload, remove it from the
reorder map and advance the counter, as long as the expected sequence
number is buffered.  `fuel` bounds the number of iterations; each iteration
removes one buffered entry, so the caller passes the buffer length. -/
def drainFuel : Nat → List (Nat × α) → Nat → List α × List (Nat × α) × Nat
  | 0, buffered, next => ([], buffered, next)
  | fuel + 1, buffered, next =>
    match popKey next buffered with
    | none => ([], buffered, next)
    | some (a, rest) =>
      let r := drainFuel fuel rest (next + 1)
      (a :: r.1, r.2.1, r.2.2)

/-- One iteration of the outer loop of `_process_payload_queue`: store the
received `(sequence_number, payload)` in `buffered_payloads`, then send
payloads in order while possible. -/
def processArrival (st : List (Nat × α) × Nat) (arr : Nat × α) :
    List α × List (Nat × α) × Nat :=
  drainFuel ((arr :: st.1).length) (arr :: st.1) st.2

/-- `_process_payload_queue` run over a finite arrival log (the payloads in
the order the concurrent synthesis tasks completed), threading the reorder
map and the `_next_sequence_to_send` counter. -/
def runQueue (st : List (Nat × α) × Nat) : List (Nat × α) → List α × (List (Nat × α) × Nat)
  | [] => ([], st)
  | arr :: rest =>
    let r1 := processArrival st arr
    let r2 := runQueue (r1.2.1, r1.2.2) rest
    (r1.1 ++ r2.1, r2.2)

/-- The full sender coroutine: start with an empty reorder map and
`_next_sequence_to_send = 0`, process every arrival, and return the
payloads actually sent, in sending order. -/
def processPayloadQueue (arrivals : List (Nat × α)) : List α :=
  (runQueue ([], 0) arrivals).1

theorem popKey_length {key : Nat} :
    ∀ {l l' : List (Nat × α)} {a : α}, popKey key l = some (a, l') →
      l'.length + 1 = l.length := by
  intro l
  induction l with
  | nil => intro l' a h; simp [popKey] at h
  | cons p rest ih =>
    intro l' a h
    obtain ⟨k, v⟩ := p
    by_cases hk : k = key
    · simp [popKey, hk] at h
      simp [h]
    · simp only [popKey, if_neg hk] at h
      cases hpop : popKey key rest with
      | none => rw [hpop] at h; simp at h
      | some r =>
        obtain ⟨a0, l0⟩ := r
        rw [hpop] at h
        simp only [Option.some.injEq, Prod.mk.injEq] at h
        obtain ⟨ha, hl⟩ := h
        subst hl
        have := ih hpop
        simp [← this]

theorem popKey_mem {key : Nat} :
    ∀ {l l' : List (Nat × α)} {a : α}, popKey key l = some (a, l') →
      (key, a) ∈ l := by
  intro l
  induction l with
  | nil => intro l' a h; simp [popKey] at h
  | cons p rest ih =>
    intro l' a h
    obtain ⟨k, v⟩ := p
    by_cases hk : k = key
    · simp [popKey, hk] at h
      subst hk
      simp [h.1]
    · simp only [popKey, if_neg hk] at h
      cases hpop : popKey key rest with
      | none => rw [hpop] at h; simp at h
      | some r =>
        obtain ⟨a0, l0⟩ := r
        rw [hpop] at h
        simp only [Option.some.injEq, Prod.mk.injEq] at h
        obtain ⟨ha, hl⟩ := h
        subst ha
        exact List.mem_cons_of_mem _ (ih hpop)

theorem popKey_subset {key : Nat} :
    ∀ {l l' : List (Nat × α)} {a : α}, popKey key l = some (a, l') →
      ∀ p ∈ l', p ∈ l := by
  intro l
  induction l with
  | nil => intro l' a h; simp [popKey] at h
  | cons q rest ih =>
    intro l' a h
    obtain ⟨k, v⟩ := q
    by_cases hk : k = key
    · simp [popKey, hk] at h
      intro p hp
      rw [← h.2] at hp
      exact List.mem_cons_of_mem _ hp
    · simp only [popKey, if_neg hk] at h
      cases hpop : popKey key rest with
      | none => rw [hpop] at h; simp at h
      | some r =>
        obtain ⟨a0, l0⟩ := r
        rw [hpop] at h
        simp only [Option.some.injEq, Prod.mk.injEq] at h
        obtain ⟨ha, hl⟩ := h
        subst hl
        intro p hp
        rcases List.mem_cons.mp hp with h1 | h2
        · exact h1 ▸ List.mem_cons_self _ _
        · exact List.mem_cons_of_mem _ (ih hpop _ h2)

theorem popKey_map_fst {key : Nat} :
    ∀ {l l' : List (Nat × α)} {a : α}, popKey key l = some (a, l') →
      l'.map Prod.fst = (l.map Prod.fst).erase key := by
  intro l
  induction l with
  | nil => intro l' a h; simp [popKey] at h
  | cons q rest ih =>
    intro l' a h
    obtain ⟨k, v⟩ := q
    by_cases hk : k = key
    · simp [popKey, hk] at h
      subst hk
      rw [← h.2]
      simp [List.erase_cons_head]
    · simp only [popKey, if_neg hk] at h
      cases hpop : popKey key rest with
      | none => rw [hpop] at h; simp at h
      | some r =>
        obtain ⟨a0, l0⟩ := r
        rw [hpop] at h
        simp only [Option.some.injEq, Prod.mk.injEq] at h
        obtain ⟨ha, hl⟩ := h
        subst hl
        have hbeq : (k == key) = false := by simp [hk]
        simp only [List.map_cons, List.erase_cons, hbeq]
        rw [ih hpop]
        simp

theorem popKey_none {key : Nat} :
    ∀ {l : List (Nat × α)}, popKey key l = none → key ∉ l.map Prod.fst := by
  intro l
  induction l with
  | nil => intro _; simp
  | cons q rest ih =>
    intro h
    obtain ⟨k, v⟩ := q
    by_cases hk : k = key
    · simp [popKey, hk] at h
    · simp only [popKey, if_neg hk] at h
      cases hpop : popKey key rest with
      | none =>
        intro hmem
        rcases List.mem_cons.mp hmem with h1 | h2
        · exact hk h1.symm
        · exact ih hpop h2
      | some r =>
        obtain ⟨a0, l0⟩ := r
        rw [hpop] at h
        simp at h

end PayloadQueue

namespace PayloadQueue

/-- Characterization of the drain loop: starting from a reorder map `B`
with distinct keys, each key `k` holding payload `f k`, draining from
counter `next` emits `f next, f (next + 1), ...` for some run length `m`,
removes exactly the keys of that run from the map, covers only keys that
were present, and stops with the new expected key absent. -/
theorem drainFuel_spec {α : Type} (f : Nat → α) :
    ∀ (fuel : Nat) (B : List (Nat × α)) (next : Nat),
      B.length ≤ fuel →
      (∀ p ∈ B, p.2 = f p.1) →
      (B.map Prod.fst).Nodup →
      ∃ m Bf,
        drainFuel fuel B next = ((List.range' next m).map f, (Bf, next + m))
        ∧ (∀ p ∈ Bf, p.2 = f p.1)
        ∧ (Bf.map Prod.fst).Nodup
        ∧ (∀ k, k ∈ Bf.map Prod.fst ↔
            (k ∈ B.map Prod.fst ∧ ¬(next ≤ k ∧ k < next + m)))
        ∧ next + m ∉ Bf.map Prod.fst
        ∧ (∀ j, next ≤ j → j < next + m → j ∈ B.map Prod.fst) := by
  intro fuel
  induction fuel with
  | zero =>
    intro B next hlen hval hnd
    have hB : B = [] := List.eq_nil_of_length_eq_zero (Nat.le_zero.mp hlen)
    subst hB
    refine ⟨0, [], by simp [drainFuel], by simp, by simp, by simp, by simp, by omega⟩
  | succ fuel ih =>
    intro B next hlen hval hnd
    cases hpop : popKey next B with
    | none =>
      have hstop := popKey_none hpop
      refine ⟨0, B, ?_, hval, hnd, ?_, by simpa using hstop, by omega⟩
      · simp [drainFuel, hpop]
      · intro k
        constructor
        · intro hk; exact ⟨hk, by omega⟩
        · intro hk; exact hk.1
    | some r =>
      obtain ⟨a, rest⟩ := r
      have hlen' : rest.length ≤ fuel := by
        have := popKey_length hpop; omega
      have hval' : ∀ p ∈ rest, p.2 = f p.1 := fun p hp => hval p (popKey_subset hpop p hp)
      have hkeys : rest.map Prod.fst = (B.map Prod.fst).erase next := popKey_map_fst hpop
      have hnd' : (rest.map Prod.fst).Nodup := by rw [hkeys]; exact hnd.erase next
      obtain ⟨m, Bf, heq, hv2, hn2, hmem2, hstop2, hcov2⟩ := ih rest (next + 1) hlen' hval' hnd'
      have ha : a = f next := hval _ (popKey_mem hpop)
      have hnextmem : next ∈ B.map Prod.fst :=
        List.mem_map.mpr ⟨(next, a), popKey_mem hpop, rfl⟩
      refine ⟨m + 1, Bf, ?_, hv2, hn2, ?_, ?_, ?_⟩
      · simp only [drainFuel, hpop]
        rw [heq, ha]
        have hr : List.range' next (m + 1) = next :: List.range' (next + 1) m :=
          List.range'_succ next m 1
        rw [hr]
        simp only [List.map_cons]
        have : next + 1 + m = next + (m + 1) := by omega
        rw [this]
      · intro k
        rw [hmem2 k, hkeys, hnd.mem_erase_iff]
        constructor
        · rintro ⟨⟨hne, hk⟩, hni⟩
          exact ⟨hk, by omega⟩
        · rintro ⟨hk, hni⟩
          refine ⟨⟨by omega, hk⟩, by omega⟩
      · have : next + (m + 1) = next + 1 + m := by omega
        rw [this]
        exact hstop2
      · intro j hj1 hj2
        by_cases hje : j = next
        · subst hje; exact hnextmem
        · have hjr : j ∈ rest.map Prod.fst := hcov2 j (by omega) (by omega)
          rw [hkeys] at hjr
          exact List.mem_of_mem_erase hjr

/-- Characterization of the outer loop of `_process_payload_queue` over an
arrival log whose keys are fresh (distinct, and not below the already-sent
counter): the emitted payloads are exactly `f next, f (next + 1), ...` for
some run length `m`, the final reorder map holds exactly the arrived but
not yet emitted keys, the next expected key is absent from it, and every
emitted key actually arrived. -/
theorem runQueue_spec {α : Type} (f : Nat → α) :
    ∀ (arrivals : List (Nat × α)) (B : List (Nat × α)) (next : Nat),
      (∀ p ∈ B, p.2 = f p.1) →
      (∀ p ∈ arrivals, p.2 = f p.1) →
      (B.map Prod.fst ++ arrivals.map Prod.fst).Nodup →
      (∀ j, j < next → j ∉ B.map Prod.fst ∧ j ∉ arrivals.map Prod.fst) →
      next ∉ B.map Prod.fst →
      ∃ m Bf,
        runQueue (B, next) arrivals = ((List.range' next m).map f, (Bf, next + m))
        ∧ (∀ k, k ∈ Bf.map Prod.fst ↔
            ((k ∈ B.map Prod.fst ∨ k ∈ arrivals.map Prod.fst) ∧ ¬ k < next + m))
        ∧ next + m ∉ Bf.map Prod.fst
        ∧ (∀ j, next ≤ j → j < next + m →
            (j ∈ B.map Prod.fst ∨ j ∈ arrivals.map Prod.fst)) := by
  intro arrivals
  induction arrivals with
  | nil =>
    intro B next hvB hvA hnd h4 h5
    refine ⟨0, B, by simp [runQueue], ?_, by simpa using h5, by omega⟩
    intro k
    constructor
    · intro hk
      refine ⟨Or.inl hk, ?_⟩
      intro hlt
      exact (h4 k (by omega)).1 hk
    · rintro ⟨hk | hk, hlt⟩
      · exact hk
      · simp at hk
  | cons arr rest ih =>
    obtain ⟨k₀, v₀⟩ := arr
    intro B next hvB hvA hnd h4 h5
    have hv₀ : v₀ = f k₀ := hvA (k₀, v₀) (List.mem_cons_self _ _)
    have hmapcons : ((k₀, v₀) :: B).map Prod.fst = k₀ :: B.map Prod.fst := rfl
    have hmapA : ((k₀, v₀) :: rest).map Prod.fst = k₀ :: rest.map Prod.fst := rfl
    rw [hmapA] at hnd h4
    -- split the nodup hypothesis
    rw [List.nodup_append] at hnd
    obtain ⟨hndB, hndA, hdisj⟩ := hnd
    have hk₀B : k₀ ∉ B.map Prod.fst := fun h => hdisj h (List.mem_cons_self _ _)
    have hk₀rest : k₀ ∉ rest.map Prod.fst := (List.nodup_cons.mp hndA).1
    have hndrest : (rest.map Prod.fst).Nodup := (List.nodup_cons.mp hndA).2
    -- drain after inserting the new arrival
    have hvB' : ∀ p ∈ (k₀, v₀) :: B, p.2 = f p.1 := by
      intro p hp
      rcases List.mem_cons.mp hp with h | h
      · rw [h]; exact hv₀
      · exact hvB p h
    have hndB' : (((k₀, v₀) :: B).map Prod.fst).Nodup := by
      rw [hmapcons]
      exact List.nodup_cons.mpr ⟨hk₀B, hndB⟩
    obtain ⟨m₁, B₁, heq1, hv1, hn1, hmem1, hstop1, hcov1⟩ :=
      drainFuel_spec f (((k₀, v₀) :: B).length) ((k₀, v₀) :: B) next le_rfl hvB' hndB'
    -- invariants for the recursive call
    have hB₁sub : ∀ k, k ∈ B₁.map Prod.fst → k = k₀ ∨ k ∈ B.map Prod.fst := by
      intro k hk
      have := ((hmem1 k).mp hk).1
      rw [hmapcons] at this
      exact List.mem_cons.mp this
    have hnd2 : (B₁.map Prod.fst ++ rest.map Prod.fst).Nodup := by
      rw [List.nodup_append]
      refine ⟨hn1, hndrest, ?_⟩
      intro k hk hkrest
      rcases hB₁sub k hk with h | h
      · exact hk₀rest (h ▸ hkrest)
      · exact hdisj h (List.mem_cons_of_mem _ hkrest)
    have h42 : ∀ j, j < next + m₁ → j ∉ B₁.map Prod.fst ∧ j ∉ rest.map Prod.fst := by
      intro j hj
      constructor
      · intro hjB₁
        obtain ⟨hjB', hjni⟩ := (hmem1 j).mp hjB₁
        rw [hmapcons] at hjB'
        rcases List.mem_cons.mp hjB' with h | h
        · -- j = k₀ buffered, so j is not in the drained run and not below next
          have hjlt : j < next := by omega
          exact (h4 j hjlt).2 (h ▸ List.mem_cons_self _ _)
        · have hjlt : j < next := by
            by_contra hge
            exact hjni ⟨by omega, by omega⟩
          exact (h4 j hjlt).1 h
      · intro hjrest
        by_cases hjlt : j < next
        · exact (h4 j hjlt).2 (List.mem_cons_of_mem _ hjrest)
        · have hjB' : j ∈ ((k₀, v₀) :: B).map Prod.fst := hcov1 j (by omega) (by omega)
          rw [hmapcons] at hjB'
          rcases List.mem_cons.mp hjB' with h | h
          · exact hk₀rest (h ▸ hjrest)
          · exact hdisj h (List.mem_cons_of_mem _ hjrest)
    obtain ⟨m₂, Bf, heq2, hmem3, hstop3, hcov3⟩ :=
      ih B₁ (next + m₁) hv1 (fun p hp => hvA p (List.mem_cons_of_mem _ hp)) hnd2 h42 hstop1
    refine ⟨m₁ + m₂, Bf, ?_, ?_, ?_, ?_⟩
    · show (let r1 := processArrival (B, next) (k₀, v₀);
            let r2 := runQueue (r1.2.1, r1.2.2) rest;
            (r1.1 ++ r2.1, r2.2))
        = ((List.range' next (m₁ + m₂)).map f, (Bf, next + (m₁ + m₂)))
      have hpa : processArrival (B, next) (k₀, v₀)
          = ((List.range' next m₁).map f, (B₁, next + m₁)) := heq1
      simp only [hpa, heq2]
      have hr : List.range' next m₁ ++ List.range' (next + m₁) m₂
          = List.range' next (m₂ + m₁) := List.range'_append_1 next m₁ m₂
      rw [← List.map_append, hr]
      have h1 : m₂ + m₁ = m₁ + m₂ := by omega
      have h2 : next + m₁ + m₂ = next + (m₁ + m₂) := by omega
      rw [h1, h2]
    · intro k
      rw [hmem3 k, hmapA]
      constructor
      · rintro ⟨hin | hin, hlt⟩
        · obtain ⟨hk, hni⟩ := (hmem1 k).mp hin
          rw [hmapcons] at hk
          rcases List.mem_cons.mp hk with h | h
          · exact ⟨Or.inr (h ▸ List.mem_cons_self _ _), by omega⟩
          · exact ⟨Or.inl h, by omega⟩
        · exact ⟨Or.inr (List.mem_cons_of_mem _ hin), by omega⟩
      · rintro ⟨hin | hin, hlt⟩
        · refine ⟨Or.inl ((hmem1 k).mpr ⟨?_, by omega⟩), by omega⟩
          rw [hmapcons]
          exact List.mem_cons_of_mem _ hin
        · rcases List.mem_cons.mp hin with h | h
          · refine ⟨Or.inl ((hmem1 k).mpr ⟨?_, by omega⟩), by omega⟩
            rw [hmapcons, h]
            exact List.mem_cons_self _ _
          · exact ⟨Or.inr h, by omega⟩
    · have : next + (m₁ + m₂) = next + m₁ + m₂ := by omega
      rw [this]
      exact hstop3
    · intro j hj1 hj2
      rw [hmapA]
      by_cases hjc : j < next + m₁
      · have hjB' : j ∈ ((k₀, v₀) :: B).map Prod.fst := hcov1 j hj1 hjc
        rw [hmapcons] at hjB'
        rcases List.mem_cons.mp hjB' with h | h
        · exact Or.inr (h ▸ List.mem_cons_self _ _)
        · exact Or.inl h
      · rcases hcov3 j (by omega) (by omega) with h | h
        · rcases hB₁sub j h with h' | h'
          · exact Or.inr (h' ▸ List.mem_cons_self _ _)
          · exact Or.inl h'
        · exact Or.inr (List.mem_cons_of_mem _ h)

/-- Claim C3: for every conversation turn, the sender coroutine
`_process_payload_queue` emits the audio payloads in the order their
sentences were submitted (the assigned sequence numbers `0..n-1`), for
every completion order of the concurrent synthesis tasks: if the arrival
log is any permutation of the payloads `f 0, ..., f (n-1)` tagged with
their sequence numbers, the emitted stream is exactly `f 0, ..., f (n-1)`. -/
theorem ordered_delivery {α : Type} (n : Nat) (f : Nat → α)
    (arrivals : List (Nat × α))
    (hperm : arrivals.Perm ((List.range n).map (fun i => (i, f i)))) :
    processPayloadQueue arrivals = (List.range n).map f := by
  have hkeysperm : (arrivals.map Prod.fst).Perm (List.range n) := by
    have h1 := hperm.map Prod.fst
    have h2 : ((List.range n).map (fun i => (i, f i))).map Prod.fst = List.range n := by
      rw [List.map_map]
      exact List.map_id'' (fun x => rfl) _
    rwa [h2] at h1
  have hkeymem : ∀ k, k ∈ arrivals.map Prod.fst ↔ k < n := by
    intro k
    rw [hkeysperm.mem_iff, List.mem_range]
  have hval : ∀ p ∈ arrivals, p.2 = f p.1 := by
    intro p hp
    have hp' := hperm.mem_iff.mp hp
    obtain ⟨i, _, hip⟩ := List.mem_map.mp hp'
    rw [← hip]
  have hnd : (([] : List (Nat × α)).map Prod.fst ++ arrivals.map Prod.fst).Nodup := by
    simp only [List.map_nil, List.nil_append]
    exact hkeysperm.nodup_iff.mpr (List.nodup_range n)
  obtain ⟨m, Bf, heq, hmem, hstop, hcov⟩ :=
    runQueue_spec f arrivals [] 0 (by simp) hval hnd (by omega) (by simp)
  have hmn : m = n := by
    have hge : n ≤ m := by
      by_contra hlt
      have hmem' : m ∈ Bf.map Prod.fst := by
        rw [hmem m]
        refine ⟨Or.inr ((hkeymem m).mpr (by omega)), by omega⟩
      rw [show (0 : Nat) + m = m from by omega] at hstop
      exact hstop hmem'
    have hle : m ≤ n := by
      by_contra hlt
      have := hcov n (by omega) (by omega)
      rcases this with h | h
      · simp at h
      · exact absurd ((hkeymem n).mp h) (by omega)
    omega
  show (runQueue ([], 0) arrivals).1 = (List.range n).map f
  rw [heq, hmn, ← List.range_eq_range']

theorem ordered_delivery_witness :
    ([(1, 11), (0, 10), (2, 12)] : List (Nat × Nat)).Perm
        ((List.range 3).map (fun i => (i, 10 + i)))
    ∧ processPayloadQueue ([(1, 11), (0, 10), (2, 12)] : List (Nat × Nat))
        = (List.range 3).map (fun i => 10 + i) :=
  ⟨by decide, ordered_delivery 3 (fun i => 10 + i) _ (by decide)⟩

end PayloadQueue

namespace StepTTS

/-- The pruning step at the top of `StepTTSRateLimiter._wait_for_rate_limit`:
`while self.request_times and now - self.request_times[0] > 60: popleft()`.
Timestamps are rationals (Python `time.time()` floats); the deque holds
them oldest first. -/
def pruneOld (now : ℚ) (ts : List ℚ) : List ℚ :=
  ts.dropWhile (fun t => decide (now - t > 60))

/-- `_wait_for_rate_limit` of `StepTTSRateLimiter` with `rpm_limit = 6`
(the process-wide instance is created with `rpm_limit=6`): prune stale
timestamps, then report the wait time — `0.0` when
`len(self.request_times) < self.rpm_limit`, otherwise
`max(0.0, 60 - (now - oldest_request_time) + 0.5)`.  Returns the wait
together with the pruned deque (the pruning mutates the deque in place). -/
def waitForRateLimit (now : ℚ) (ts : List ℚ) : ℚ × List ℚ :=
  let pruned := pruneOld now ts
  if pruned.length < 6 then (0, pruned)
  else
    match pruned with
    | [] => (0, pruned)
    | oldest :: _ => (max 0 (60 - (now - oldest) + 1/2), pruned)

/-- `record_request`: append the current time.  The deque was created with
`maxlen = rpm_limit = 6`, so appending to a full deque evicts its oldest
entry. -/
def recordRequest (now : ℚ) (ts : List ℚ) : List ℚ :=
  let l := ts ++ [now]
  l.drop (l.length - 6)

/-- The states the process-wide rate limiter can reach: it starts with an
empty deque, and the deque is mutated only by `record_request` and by the
pruning inside `_wait_for_rate_limit`. -/
inductive Reachable : List ℚ → Prop
  | init : Reachable []
  | record (now : ℚ) {ts : List ℚ} : Reachable ts → Reachable (recordRequest now ts)
  | wait (now : ℚ) {ts : List ℚ} : Reachable ts → Reachable (waitForRateLimit now ts).2

theorem recordRequest_length_le (now : ℚ) (ts : List ℚ) :
    (recordRequest now ts).length ≤ 6 := by
  simp only [recordRequest, List.length_drop]
  omega

theorem waitForRateLimit_snd (now : ℚ) (ts : List ℚ) :
    (waitForRateLimit now ts).2 = pruneOld now ts := by
  simp only [waitForRateLimit]
  split
  · rfl
  · split <;> simp_all [pruneOld]

theorem reachable_length_le {ts : List ℚ} (h : Reachable ts) : ts.length ≤ 6 := by
  induction h with
  | init => simp
  | record now _ _ => exact recordRequest_length_le _ _
  | @wait now ts _ ih =>
    rw [waitForRateLimit_snd]
    exact le_trans (List.dropWhile_sublist _).length_le ih

theorem dropWhile_eq_filter_of_sorted (now : ℚ) :
    ∀ ts : List ℚ, ts.Sorted (· ≤ ·) →
      ts.dropWhile (fun t => decide (now - t > 60))
        = ts.filter (fun t => decide (now - t ≤ 60)) := by
  intro ts
  induction ts with
  | nil => intro _; rfl
  | cons t rest ih =>
    intro hs
    obtain ⟨hall, hrest⟩ := List.sorted_cons.mp hs
    by_cases hold : now - t > 60
    · rw [List.dropWhile_cons_of_pos (by simpa using hold),
        List.filter_cons_of_neg (by simp; linarith)]
      exact ih hrest
    · rw [List.dropWhile_cons_of_neg (by simpa using hold),
        List.filter_cons_of_pos (by simp; linarith)]
      congr 1
      symm
      rw [List.filter_eq_self]
      intro u hu
      have := hall u hu
      simp only [decide_eq_true_eq]
      linarith

theorem dropWhile_head_not {p : ℚ → Bool} :
    ∀ {l : List ℚ} {x : ℚ} {xs : List ℚ}, l.dropWhile p = x :: xs → p x = false := by
  intro l
  induction l with
  | nil => intro x xs h; simp [List.dropWhile] at h
  | cons a rest ih =>
    intro x xs h
    by_cases ha : p a
    · rw [List.dropWhile_cons_of_pos ha] at h
      exact ih h
    · rw [List.dropWhile_cons_of_neg ha] at h
      obtain ⟨h1, _⟩ := List.cons.injEq .. ▸ h
      cases h
      simpa using ha

theorem waitForRateLimit_fst_full (now : ℚ) (ts : List ℚ) (oldest : ℚ) (rest : List ℚ)
    (hp : pruneOld now ts = oldest :: rest) (hge : ¬ (pruneOld now ts).length < 6) :
    (waitForRateLimit now ts).1 = max 0 (60 - (now - oldest) + 1/2) := by
  rw [hp] at hge
  simp only [waitForRateLimit, hp]
  rw [if_neg hge]

/-- Claim C7: at every reachable, chronologically ordered state of the
process-wide rate limiter, (a) at most 6 recorded timestamps lie within
the rolling 60-second window; (b) the pruning before each synthesis call
removes exactly the timestamps older than 60 seconds; (c) the call
proceeds without waiting if and only if fewer than 6 timestamps remain
after pruning; and (d) otherwise the computed sleep ends at
`oldest + 60 + 0.5` seconds. -/
theorem rate_limiter_sliding_window (now : ℚ) (ts : List ℚ)
    (hreach : Reachable ts) (hsorted : ts.Sorted (· ≤ ·)) :
    (ts.filter (fun t => decide (now - t ≤ 60))).length ≤ 6
    ∧ (waitForRateLimit now ts).2 = ts.filter (fun t => decide (now - t ≤ 60))
    ∧ ((waitForRateLimit now ts).1 = 0 ↔ (pruneOld now ts).length < 6)
    ∧ (¬ (pruneOld now ts).length < 6 →
        now + (waitForRateLimit now ts).1 = (pruneOld now ts).headD 0 + 60 + 1/2) := by
  have hfl : (ts.filter (fun t => decide (now - t ≤ 60))).length ≤ 6 :=
    le_trans (List.length_filter_le _ _) (reachable_length_le hreach)
  have hprune : pruneOld now ts = ts.filter (fun t => decide (now - t ≤ 60)) :=
    dropWhile_eq_filter_of_sorted now ts hsorted
  refine ⟨hfl, by rw [waitForRateLimit_snd, hprune], ?_, ?_⟩
  · constructor
    · intro hz
      by_contra hge
      have hex : ∃ oldest rest, pruneOld now ts = oldest :: rest := by
        cases hp : pruneOld now ts with
        | nil => rw [hp] at hge; simp at hge
        | cons a l => exact ⟨a, l, rfl⟩
      obtain ⟨oldest, rest, hp⟩ := hex
      have hnotold : (fun t => decide (now - t > 60)) oldest = false :=
        dropWhile_head_not (p := fun t => decide (now - t > 60)) hp
      have hwithin : now - oldest ≤ 60 := by simpa using hnotold
      rw [waitForRateLimit_fst_full now ts oldest rest hp hge] at hz
      have hpos : (0 : ℚ) < 60 - (now - oldest) + 1/2 := by linarith
      rw [max_eq_right (le_of_lt hpos)] at hz
      linarith
    · intro hlt
      simp only [waitForRateLimit]
      rw [if_pos hlt]
  · intro hge
    have hex : ∃ oldest rest, pruneOld now ts = oldest :: rest := by
      cases hp : pruneOld now ts with
      | nil => rw [hp] at hge; simp at hge
      | cons a l => exact ⟨a, l, rfl⟩
    obtain ⟨oldest, rest, hp⟩ := hex
    have hnotold : (fun t => decide (now - t > 60)) oldest = false :=
      dropWhile_head_not (p := fun t => decide (now - t > 60)) hp
    have hwithin : now - oldest ≤ 60 := by simpa using hnotold
    have hpos : (0 : ℚ) ≤ 60 - (now - oldest) + 1/2 := by linarith
    rw [waitForRateLimit_fst_full now ts oldest rest hp hge, max_eq_right hpos, hp]
    simp only [List.headD_cons]
    ring

theorem rate_limiter_sliding_window_witness :
    Reachable [(50 : ℚ), 60, 70, 80, 90, 95]
    ∧ (([(50 : ℚ), 60, 70, 80, 90, 95]).Sorted (· ≤ ·))
    ∧ ((([(50 : ℚ), 60, 70, 80, 90, 95]).filter
          (fun t => decide ((100 : ℚ) - t ≤ 60))).length ≤ 6
      ∧ (waitForRateLimit 100 [(50 : ℚ), 60, 70, 80, 90, 95]).2
          = ([(50 : ℚ), 60, 70, 80, 90, 95]).filter (fun t => decide ((100 : ℚ) - t ≤ 60))
      ∧ ((waitForRateLimit 100 [(50 : ℚ), 60, 70, 80, 90, 95]).1 = 0 ↔
          (pruneOld 100 [(50 : ℚ), 60, 70, 80, 90, 95]).length < 6)
      ∧ (¬ (pruneOld 100 [(50 : ℚ), 60, 70, 80, 90, 95]).length < 6 →
          (100 : ℚ) + (waitForRateLimit 100 [(50 : ℚ), 60, 70, 80, 90, 95]).1
            = (pruneOld 100 [(50 : ℚ), 60, 70, 80, 90, 95]).headD 0 + 60 + 1/2)) := by
  have hreach : Reachable [(50 : ℚ), 60, 70, 80, 90, 95] :=
    (((((Reachable.init.record 50).record 60).record 70).record 80).record 90).record 95
  have hsorted : ([(50 : ℚ), 60, 70, 80, 90, 95]).Sorted (· ≤ ·) := by decide
  exact ⟨hreach, hsorted, rate_limiter_sliding_window 100 _ hreach hsorted⟩

/-- Outcome of one `requests.post` call inside `TTSEngine.generate_audio`:
either the server answered with some HTTP status, or the call raised
(`Timeout`, `RequestException`, or any other exception). -/
inductive PostOutcome
  | response (status : Nat)
  | timeout
  | requestsError
  | otherError
deriving Repr, DecidableEq

/-- Whether the `requests.post` call returned a response object (of any
status) rather than raising. -/
def PostOutcome.isResponse : PostOutcome → Bool
  | response _ => true
  | _ => false

/-- Observable result of the `generate_audio` retry loop: the final rate
limiter deque, the log of timestamps passed to `record_request`, the
number of attempts actually performed, and whether a file was produced. -/
structure GenerateResult where
  requestTimes : List ℚ
  recorded : List ℚ
  consumed : Nat
  success : Bool
deriving Repr, DecidableEq

/-- The `for attempt in range(max_retries)` loop of
`TTSEngine.generate_audio`, driven by the outcome of each attempt's
`requests.post` call (paired with the attempt's clock time).  Each
iteration first runs `wait_if_needed` (which prunes the shared deque),
then performs the post; `record_request` runs only after the post returns
a response — status 200 saves the file, 429 sleeps 12 s and retries,
other statuses fail; a `Timeout` retries (with 2 s backoff) unless this
was the last attempt, and other exceptions fail immediately. -/
def generateAudioAttempts : Nat → List ℚ → List (ℚ × PostOutcome) → GenerateResult
  | 0, ts, _ => ⟨ts, [], 0, false⟩
  | _ + 1, ts, [] => ⟨ts, [], 0, false⟩
  | r + 1, ts, (now, oc) :: rest =>
    let ts1 := (waitForRateLimit now ts).2
    match oc with
    | .response code =>
      let ts2 := recordRequest now ts1
      if code = 200 then ⟨ts2, [now], 1, true⟩
      else if code = 429 then
        let rc := generateAudioAttempts r ts2 rest
        ⟨rc.requestTimes, now :: rc.recorded, rc.consumed + 1, rc.success⟩
      else ⟨ts2, [now], 1, false⟩
    | .timeout =>
      if 0 < r then
        let rc := generateAudioAttempts r ts1 rest
        ⟨rc.requestTimes, rc.recorded, rc.consumed + 1, rc.success⟩
      else ⟨ts1, [], 1, false⟩
    | .requestsError => ⟨ts1, [], 1, false⟩
    | .otherError => ⟨ts1, [], 1, false⟩

/-- `generate_audio` with `max_retries = 3`. -/
def generateAudio (ts : List ℚ) (outcomes : List (ℚ × PostOutcome)) : GenerateResult :=
  generateAudioAttempts 3 ts outcomes

theorem generateAudioAttempts_recorded (r : Nat) :
    ∀ (ts : List ℚ) (outcomes : List (ℚ × PostOutcome)),
      (generateAudioAttempts r ts outcomes).recorded
        = ((outcomes.take (generateAudioAttempts r ts outcomes).consumed).filter
            (fun p => p.2.isResponse)).map Prod.fst := by
  induction r with
  | zero => intro ts outcomes; rfl
  | succ r ih =>
    intro ts outcomes
    cases outcomes with
    | nil => rfl
    | cons a rest =>
      obtain ⟨now, oc⟩ := a
      cases oc with
      | response code =>
        by_cases h200 : code = 200
        · simp [generateAudioAttempts, h200, PostOutcome.isResponse]
        · by_cases h429 : code = 429
          · simp only [generateAudioAttempts]
            rw [if_neg h200, if_pos h429]
            simp [PostOutcome.isResponse, ih]
          · simp only [generateAudioAttempts]
            rw [if_neg h200, if_neg h429]
            simp [PostOutcome.isResponse]
      | timeout =>
        by_cases hr : 0 < r
        · simp only [generateAudioAttempts]
          rw [if_pos hr]
          simp [PostOutcome.isResponse, ih]
        · simp only [generateAudioAttempts]
          rw [if_neg hr]
          simp [PostOutcome.isResponse]
      | requestsError => simp [generateAudioAttempts, PostOutcome.isResponse]
      | otherError => simp [generateAudioAttempts, PostOutcome.isResponse]

/-- Claim C8, counterexample: three synthesis attempts that all time out
perform three `requests.post` calls but record no timestamp at all in the
rate limiter's window — the claim that a timestamp is recorded for every
attempt, including timeouts, is false. -/
theorem generate_audio_timeout_records_nothing :
    (generateAudio [] [((10 : ℚ), PostOutcome.timeout), (12, PostOutcome.timeout),
        (14, PostOutcome.timeout)]).consumed = 3
    ∧ (generateAudio [] [((10 : ℚ), PostOutcome.timeout), (12, PostOutcome.timeout),
        (14, PostOutcome.timeout)]).recorded = [] := by
  constructor <;> rfl

/-- Claim C8, amended: during `generate_audio`, a timestamp is recorded in
the rate limiter's window for exactly those attempts whose HTTP request
returned a response — any status, including 200, 429 and other error
statuses — and no timestamp is recorded for attempts that raised
(timeouts and connection errors). -/
theorem generate_audio_records_exactly_responses (ts : List ℚ)
    (outcomes : List (ℚ × PostOutcome)) :
    (generateAudio ts outcomes).recorded
      = ((outcomes.take (generateAudio ts outcomes).consumed).filter
          (fun p => p.2.isResponse)).map Prod.fst :=
  generateAudioAttempts_recorded 3 ts outcomes

end StepTTS

namespace SentenceDivider

/-- Python `str.strip()`: drop whitespace from both ends (over the
characters of the string, one code point per list entry). -/
def pyStrip (l : List Char) : List Char :=
  ((l.dropWhile Char.isWhitespace).reverse.dropWhile Char.isWhitespace).reverse

/-- Python `str.lstrip()`. -/
def pyLstrip (l : List Char) : List Char :=
  l.dropWhile Char.isWhitespace

/-- Python `str.rstrip()`. -/
def pyRstrip (l : List Char) : List Char :=
  (l.reverse.dropWhile Char.isWhitespace).reverse

/-- Python `str.count(sub)` for a nonempty `sub`: the number of
non-overlapping occurrences, scanning left to right.  `fuel` is the length
of the scanned text. -/
def countSubFuel (pat : List Char) : Nat → List Char → Nat
  | 0, _ => 0
  | fuel + 1, l =>
    match l with
    | [] => 0
    | _ :: rest =>
      if pat ≠ [] ∧ pat.isPrefixOf l then 1 + countSubFuel pat fuel (l.drop pat.length)
      else countSubFuel pat fuel rest

/-- Python `text.count(pat)` (the patterns used by the source are all
nonempty). -/
def countSub (text pat : List Char) : Nat :=
  countSubFuel pat text.length text

/-- The backtick character (U+0060). -/
def backtickChar : Char := Char.ofNat 96

/-- `is_inside_markdown(text, pos)` from `comma_splitter`: counts of
`**`/`__` pairs, leftover single `*`/`_`, and backtick/triple-backtick
spans in `text[:pos]`; an odd count means position `pos` is inside a
markdown span. -/
def isInsideMarkdown (text : List Char) (pos : Nat) : Bool :=
  let before := text.take pos
  let boldStars := countSub before ['*', '*']
  let boldUnderscores := countSub before ['_', '_']
  if boldStars % 2 = 1 || boldUnderscores % 2 = 1 then true
  else
    let singleStars := before.count '*' - boldStars * 2
    let singleUnderscores := before.count '_' - boldUnderscores * 2
    if singleStars % 2 = 1 || singleUnderscores % 2 = 1 then true
    else
      let backticks := before.count backtickChar
      let tripleBackticks := countSub before [backtickChar, backtickChar, backtickChar]
      if (backticks - tripleBackticks * 3) % 2 = 1 || tripleBackticks % 2 = 1 then true
      else false

/-- `text.rfind('\n', 0, pos)` adjusted as in `should_skip_comma`: the
start index of the line containing position `pos`. -/
def lineStart (text : List Char) (pos : Nat) : Nat :=
  let before := text.take pos
  match before.reverse.findIdx? (fun c => c = '\n') with
  | none => 0
  | some k => before.length - k

/-- The test `re.match(r'^\s*\d+[.)，,\s]', after_comma)` on the stripped
lookahead: at least one digit followed by one of `.`, `)`, `，`, `,` or a
whitespace character. -/
def matchesEnumeratorAfter (s : List Char) : Bool :=
  let ds := s.takeWhile Char.isDigit
  if ds.isEmpty then false
  else
    match s.drop ds.length with
    | c :: _ => c = '.' || c = ')' || c = '，' || c = ',' || c.isWhitespace
    | [] => false

/-- The test `re.search(r'\d+$', before_comma)`: the string ends with a
digit. -/
def endsWithDigit (s : List Char) : Bool :=
  match s.reverse with
  | c :: _ => c.isDigit
  | [] => false

/-- The test `re.search(r'\d+[,，]\s*\d+$', before_more)`: the string ends
with digits, preceded by optional whitespace, preceded by an ASCII or
full-width comma, preceded by at least one digit. -/
def digitCommaDigitSuffix (s : List Char) : Bool :=
  let r := s.reverse
  let d1 := r.takeWhile Char.isDigit
  if d1.isEmpty then false
  else
    match (r.drop d1.length).dropWhile Char.isWhitespace with
    | c :: r3 =>
      if c = ',' || c = '，' then
        match r3 with
        | d :: _ => d.isDigit
        | [] => false
      else false
    | [] => false

/-- `should_skip_comma(text, pos)` from `comma_splitter`: skip commas
inside markdown spans or on heading lines; split when the comma precedes a
new list enumerator; skip commas inside a recognized digit sequence like
`1, 2, 3`. -/
def shouldSkipComma (text : List Char) (pos : Nat) : Bool :=
  if isInsideMarkdown text pos then true
  else
    let lineContent := pyStrip ((text.take pos).drop (lineStart text pos))
    match lineContent with
    | '#' :: _ => true
    | _ =>
      let afterComma := pyStrip ((text.drop (pos + 1)).take 9)
      if matchesEnumeratorAfter afterComma then false
      else
        let beforeComma := pyStrip ((text.take pos).drop (pos - 10))
        if endsWithDigit beforeComma then
          let beforeMore := (text.take pos).drop (pos - 20)
          if digitCommaDigitSuffix beforeMore then true
          else false
        else false

/-- The 17 comma characters of the `COMMAS` constant (in source order,
including the duplicated Arabic comma). -/
def COMMAS : List Char :=
  [',', '،', '，', '、', '፣', '၊', ';', '΄', '‛', '।', '﹐', '꓾', '⹁', '︐', '﹑', '､', '،']

/-- The scan `pos = text.find(comma, pos); ...; pos += len(comma)` inside
`comma_splitter`: the first occurrence of `comma` (at index `i` onwards)
that `should_skip_comma` does not veto. -/
def firstSafeCommaFrom (text : List Char) (comma : Char) : Nat → List Char → Option Nat
  | _, [] => none
  | i, c :: rest =>
    if c = comma ∧ shouldSkipComma text i = false then some i
    else firstSafeCommaFrom text comma (i + 1) rest

def firstSafeComma (text : List Char) (comma : Char) : Option Nat :=
  firstSafeCommaFrom text comma 0 text

/-- The outer `for comma in COMMAS` loop of `comma_splitter`. -/
def commaScan (l : List Char) : List Char → Option Nat
  | [] => none
  | comma :: commas =>
    if l.contains comma then
      match firstSafeComma l comma with
      | some pos => some pos
      | none => commaScan l commas
    else commaScan l commas

/-- The first component of `comma_splitter`'s return value is dynamically
typed in the source: the empty-input branch `return [], ""` yields a
`list`, every other branch yields a `str`. -/
inductive PyStrOrList where
  | ofString (s : String)
  | emptyList
deriving Repr, DecidableEq

/-- `comma_splitter(text)`: split `text` at the first safe comma, the split
text keeping the comma and both parts stripped; `(text, "")` when no safe
comma exists; `([], "")` on empty input. -/
def comma_splitter (text : String) : PyStrOrList × String :=
  if text = "" then (PyStrOrList.emptyList, "")
  else
    let l := text.toList
    match commaScan l COMMAS with
    | some pos =>
      (PyStrOrList.ofString (String.mk (pyStrip (l.take (pos + 1)))),
       String.mk (pyStrip (l.drop (pos + 1))))
    | none => (PyStrOrList.ofString text, "")

theorem firstSafeCommaFrom_skip_false (text : List Char) (comma : Char) :
    ∀ (rest : List Char) (i pos : Nat),
      firstSafeCommaFrom text comma i rest = some pos →
      shouldSkipComma text pos = false := by
  intro rest
  induction rest with
  | nil => intro i pos h; simp [firstSafeCommaFrom] at h
  | cons c tail ih =>
    intro i pos h
    by_cases hc : c = comma ∧ shouldSkipComma text i = false
    · rw [firstSafeCommaFrom, if_pos hc] at h
      obtain ⟨_, hskip⟩ := hc
      cases h
      exact hskip
    · rw [firstSafeCommaFrom, if_neg hc] at h
      exact ih (i + 1) pos h

theorem shouldSkipComma_false_not_markdown (text : List Char) (pos : Nat)
    (h : shouldSkipComma text pos = false) : isInsideMarkdown text pos = false := by
  by_cases hm : isInsideMarkdown text pos
  · rw [shouldSkipComma, if_pos hm] at h
    simp at h
  · simpa using hm

/-- The concrete first-sentence input of the claim. -/
def wellInput : String := "Well, this is **bold, emphasis**, right."

/-- Claim C9, counterexample: with `faster_first_response`, the first-comma
split of `"Well, this is **bold, emphasis**, right."` emits the text
`"Well,"` — the split text retains the comma, so the emitted sentence is
not `"Well"`. -/
theorem comma_split_emits_well_comma :
    comma_splitter wellInput
      = (PyStrOrList.ofString "Well,", "this is **bold, emphasis**, right.")
    ∧ ("Well," : String) ≠ "Well" := by
  exact ⟨rfl, by decide⟩

/-- Claim C9, amended: the first-sentence comma split of
`"Well, this is **bold, emphasis**, right."` splits at the first comma and
emits `"Well,"` (the claim's `"Well"` with the comma retained), and in
general a comma position chosen by the splitter's scan is never inside a
Markdown emphasis/code span, so the comma inside `**bold, emphasis**`
never triggers a split. -/
theorem comma_split_markdown_protection :
    comma_splitter wellInput
      = (PyStrOrList.ofString "Well,", "this is **bold, emphasis**, right.")
    ∧ ∀ (l : List Char) (comma : Char) (pos : Nat),
        firstSafeComma l comma = some pos → isInsideMarkdown l pos = false := by
  refine ⟨rfl, ?_⟩
  intro l comma pos h
  exact shouldSkipComma_false_not_markdown l pos
    (firstSafeCommaFrom_skip_false l comma l 0 pos h)

theorem comma_split_markdown_protection_witness :
    firstSafeComma ("a,b".toList) ',' = some 1
    ∧ isInsideMarkdown ("a,b".toList) 1 = false :=
  ⟨rfl, comma_split_markdown_protection.2 ("a,b".toList) ',' 1 rfl⟩

/-- Claim C10: `comma_splitter` returns a pair whose first component is a
string for every nonempty input, but `([], "")` — an empty list in the
first slot — for the empty string. -/
theorem comma_splitter_empty_returns_list :
    comma_splitter "" = (PyStrOrList.emptyList, "")
    ∧ ∀ s : String, s ≠ "" → ∃ t, (comma_splitter s).1 = PyStrOrList.ofString t := by
  refine ⟨rfl, ?_⟩
  intro s hs
  rw [comma_splitter, if_neg hs]
  cases hscan : commaScan s.toList COMMAS with
  | none =>
    refine ⟨s, ?_⟩
    simp only [String.toList] at hscan
    simp [hscan]
  | some pos =>
    refine ⟨String.mk (pyStrip (s.toList.take (pos + 1))), ?_⟩
    simp only [String.toList] at hscan ⊢
    simp [hscan]

theorem comma_splitter_empty_returns_list_witness :
    ("ab" : String) ≠ ""
    ∧ ∃ t, (comma_splitter "ab").1 = PyStrOrList.ofString t :=
  ⟨by decide, comma_splitter_empty_returns_list.2 "ab" (by decide)⟩

end SentenceDivider

namespace SentenceDivider

/-- The character class of the regex built in `segment_text_by_regex`:
`r"(.*?(?:[" + "|".join(escaped_punctuations) + r"]))"` joins the escaped
end punctuations with `|` *inside a character class*, so the class matches
exactly the characters `.`, `|`, `!`, `?`, `。`, `！`, `？` (the multi-dot
entries `...`/`。。。` contribute no new characters).  A lazy `.*?` before
the class means the leftmost match ends right after the first such
character. -/
def isEndPunctClassChar (c : Char) : Bool :=
  c = '.' || c = '|' || c = '!' || c = '?' || c = '。' || c = '！' || c = '？'

/-- The `ABBREVIATIONS` constant (source order, with the duplicated
`"Dr."`). -/
def ABBREVIATIONS : List String :=
  ["Mr.", "Mrs.", "Dr.", "Prof.", "Inc.", "Ltd.", "Jr.", "Sr.", "e.g.", "i.e.",
   "vs.", "St.", "Rd.", "Dr."]

/-- `any(potential_sentence.endswith(abbrev) for abbrev in ABBREVIATIONS)`. -/
def endsWithAbbreviation (l : List Char) : Bool :=
  ABBREVIATIONS.any (fun a => a.toList.isSuffixOf l)

/-- The `while remaining_text:` loop of `segment_text_by_regex`: find the
first end-punctuation character, cut the prefix through it, *skip the
whole prefix* when it ends with an abbreviation, otherwise append it as a
complete sentence; stop when no further match exists.  `fuel` bounds the
iterations (each consumes at least one character, so the initial text
length is enough). -/
def segmentRegexLoop : Nat → List Char → List (List Char) → List (List Char) × List Char
  | 0, remaining, acc => (acc.reverse, remaining)
  | fuel + 1, remaining, acc =>
    if remaining.isEmpty then (acc.reverse, remaining)
    else
      match remaining.findIdx? (fun c => isEndPunctClassChar c) with
      | none => (acc.reverse, remaining)
      | some q =>
        let endPos := q + 1
        let potential := pyStrip (remaining.take endPos)
        let rest := pyLstrip (remaining.drop endPos)
        if endsWithAbbreviation potential then segmentRegexLoop fuel rest acc
        else segmentRegexLoop fuel rest (potential :: acc)

/-- `segment_text_by_regex(text)`: complete sentences and the remaining
incomplete text. -/
def segment_text_by_regex (text : String) : List String × String :=
  if text = "" then ([], "")
  else
    let remaining := pyStrip text.toList
    let r := segmentRegexLoop remaining.length remaining []
    (r.1.map (fun l => String.mk l), String.mk r.2)

/-- The isolated-enumerator test of `_merge_isolated_numbers`:
`re.match(r'^(\d+[.)）、]?|\(\d+\)|[①-⑳])$', stripped)`. -/
def isIsolatedNumber (s : List Char) : Bool :=
  let ds := s.takeWhile Char.isDigit
  let altA := !ds.isEmpty &&
    (match s.drop ds.length with
     | [] => true
     | [c] => c = '.' || c = ')' || c = '）' || c = '、'
     | _ => false)
  let altB :=
    match s with
    | '(' :: rest =>
      let ds2 := rest.takeWhile Char.isDigit
      !ds2.isEmpty && rest.drop ds2.length = [')']
    | _ => false
  let altC :=
    match s with
    | [c] => 0x2460 ≤ c.toNat && c.toNat ≤ 0x2473
    | _ => false
  altA || altB || altC

/-- The accumulation loop of `_merge_isolated_numbers`, threading the
`pending` enumerator. -/
def mergeIsolatedLoop : List String → String → List String
  | [], pending => if pending = "" then [] else [String.mk (pyStrip pending.toList)]
  | sentence :: rest, pending =>
    let stripped := String.mk (pyStrip sentence.toList)
    if isIsolatedNumber stripped.toList then mergeIsolatedLoop rest (stripped ++ " ")
    else if pending ≠ "" then (pending ++ stripped) :: mergeIsolatedLoop rest ""
    else sentence :: mergeIsolatedLoop rest pending

/-- `_merge_isolated_numbers(sentences)`. -/
def mergeIsolatedNumbers (sentences : List String) : List String :=
  mergeIsolatedLoop sentences ""

/-- `_remove_trailing_punctuation(sentences)`: right-strip each sentence
and drop one trailing `。` or `，`. -/
def removeTrailingPunctuation (sentences : List String) : List String :=
  sentences.map (fun sentence =>
    let stripped := pyRstrip sentence.toList
    match stripped.getLast? with
    | some c =>
      if c = '。' || c = '，' then String.mk stripped.dropLast else String.mk stripped
    | none => String.mk stripped)

/-- Python `text.split('\n')` (keeping empty pieces). -/
def splitOnNl : List Char → List (List Char)
  | [] => [[]]
  | c :: rest =>
    if c = '\n' then [] :: splitOnNl rest
    else
      match splitOnNl rest with
      | h :: t => (c :: h) :: t
      | [] => [[c]]

/-- The per-line loop of `_segment_text` with `segment_method = "regex"`:
strip each line, skip empty lines, segment each line, treat leftovers of
non-final lines as complete sentences, and keep the final line's leftover
as the remaining text. -/
def segmentTextLines : List (List Char) → List String × String
  | [] => ([], "")
  | [line] =>
    let stripped := pyStrip line
    if stripped.isEmpty then ([], "")
    else segment_text_by_regex (String.mk stripped)
  | line :: rest =>
    let stripped := pyStrip line
    if stripped.isEmpty then segmentTextLines rest
    else
      let r := segment_text_by_regex (String.mk stripped)
      let tail := segmentTextLines rest
      let leftover := pyStrip r.2.toList
      if leftover.isEmpty then (r.1 ++ tail.1, tail.2)
      else (r.1 ++ [String.mk leftover] ++ tail.1, tail.2)

/-- `SentenceDivider._segment_text` with the regex method: line-wise
segmentation followed by the two post-processing passes. -/
def segment_text_divider (text : String) : List String × String :=
  let r := segmentTextLines (splitOnNl text.toList)
  (removeTrailingPunctuation (mergeIsolatedNumbers r.1), r.2)

/-- Claim C4 (code bug): on the single-fragment stream
`"Hello Mr. Smith went home."` the regex segmentation path of
`_segment_text` silently discards the prefix `"Hello Mr."` — the
abbreviation branch of `segment_text_by_regex` advances past the matched
prefix without appending it anywhere — so the concatenation of the emitted
sentences is not the input modulo the allowed normalizations. -/
theorem segment_text_drops_abbreviation_prefix :
    segment_text_divider "Hello Mr. Smith went home." = (["Smith went home."], "")
    ∧ segment_text_by_regex "Hello Mr. Smith went home." = (["Smith went home."], "") := by
  exact ⟨rfl, rfl⟩

end SentenceDivider

namespace SentenceDivider

/-- First index at which `pat` occurs as a contiguous substring of `l`
(Python `str.find` / the anchor search of `re.search`). -/
def findSub (pat : List Char) : List Char → Option Nat
  | [] => if pat.isEmpty then some 0 else none
  | l@(_ :: rest) =>
    if pat.isPrefixOf l then some 0
    else
      match findSub pat rest with
      | some i => some (i + 1)
      | none => none

/-- `TagState` of `sentence_divider.py`. -/
inductive TagState where
  | tagStart
  | inside
  | tagEnd
  | selfClosing
  | noTag
deriving Repr, DecidableEq

/-- `TagInfo`. -/
structure TagInfo where
  name : String
  state : TagState
deriving Repr, DecidableEq

/-- `SentenceWithTags`: a segmented unit with its tag context and, in
dual-stream mode, the TTS text from the `<say>` tag. -/
structure SentenceWithTags where
  text : String
  tags : List TagInfo
  ttsText : Option String := none
deriving Repr, DecidableEq

/-- Backtracking over candidate `</show>` closers for a fixed `<show>`
opener, as the lazy group `(.*?)` of the dual-stream regex
`<show>(.*?)</show>\s*<say>(.*?)</say>` (DOTALL) does: the group first
ends at the nearest `</show>`; if `\s*<say>` does not follow there, it
extends to the next `</show>`, and so on.  The `<say>` group ends at the
first `</say>` after it.  Returns the show content, the say content and
the suffix after the whole match.  `fuel` bounds the candidates (each step
consumes at least 7 characters of `rest`). -/
def tryFromShow (pre : List Char) : Nat → List Char → Option (List Char × List Char × List Char)
  | 0, _ => none
  | fuel + 1, rest =>
    match findSub ("</show>".toList) rest with
    | none => none
    | some j =>
      let content := pre ++ rest.take j
      let afterWs := (rest.drop (j + 7)).dropWhile Char.isWhitespace
      if ("<say>".toList).isPrefixOf afterWs then
        match findSub ("</say>".toList) (afterWs.drop 5) with
        | some k => some (content, (afterWs.drop 5).take k, (afterWs.drop 5).drop (k + 6))
        | none => tryFromShow (content ++ "</show>".toList) fuel (rest.drop (j + 7))
      else tryFromShow (content ++ "</show>".toList) fuel (rest.drop (j + 7))

/-- `re.search(self._dual_stream_pattern, buffer)`: the leftmost `<show>`
opener from which the pattern completes wins; on failure the search
restarts past that opener.  `fuel` bounds the scanned openers. -/
def findDualMatch : Nat → List Char → Option (List Char × List Char × List Char)
  | 0, _ => none
  | fuel + 1, l =>
    match findSub ("<show>".toList) l with
    | none => none
    | some i =>
      let afterOpen := l.drop (i + 6)
      match tryFromShow [] afterOpen.length afterOpen with
      | some r => some r
      | none => findDualMatch fuel (l.drop (i + 1))

/-- The drain loop of `_process_dual_stream_buffer`: extract complete
dual-stream pairs one by one, yielding a unit with stripped display and
TTS texts and cutting the buffer at each match end (each match consumes at
least the 22 characters of the four tags, so the buffer length bounds the
number of rounds). -/
def processDualStreamLoop : Nat → List Char → List SentenceWithTags × List Char
  | 0, buffer => ([], buffer)
  | fuel + 1, buffer =>
    match findDualMatch buffer.length buffer with
    | none => ([], buffer)
    | some (sh, sy, rest) =>
      let unit : SentenceWithTags :=
        ⟨String.mk (pyStrip sh), [⟨"", TagState.noTag⟩], some (String.mk (pyStrip sy))⟩
      let r := processDualStreamLoop fuel rest
      (unit :: r.1, r.2)

/-- `_process_dual_stream_buffer`: the yielded units and the final
buffer. -/
def processDualStreamBuffer (buffer : List Char) : List SentenceWithTags × List Char :=
  processDualStreamLoop buffer.length buffer

/-- The residue handling of `_flush_dual_stream_buffer` after draining all
complete pairs: an unclosed `<show>X` (matched by
`re.search(r'<show>(.*?)(?:</show>|$)', remaining, DOTALL)`) is emitted
with `tts_text = X`; other non-tag residue is emitted verbatim; residue
starting with `<` but containing no `<show>` is dropped. -/
def flushDualRemaining (remaining : List Char) : List SentenceWithTags :=
  if remaining.isEmpty then []
  else
    match findSub ("<show>".toList) remaining with
    | some i =>
      let after := remaining.drop (i + 6)
      let content :=
        match findSub ("</show>".toList) after with
        | some j => after.take j
        | none => after
      let display := pyStrip content
      if display.isEmpty then []
      else [⟨String.mk display, [⟨"", TagState.noTag⟩], some (String.mk display)⟩]
    | none =>
      match remaining with
      | '<' :: _ => []
      | _ => [⟨String.mk remaining, [⟨"", TagState.noTag⟩], some (String.mk remaining)⟩]

/-- `_flush_dual_stream_buffer` (its final call to `_flush_buffer` runs on
an emptied buffer and yields nothing). -/
def flushDualStreamBuffer (buffer : List Char) : List SentenceWithTags :=
  let r := processDualStreamBuffer buffer
  r.1 ++ flushDualRemaining (pyStrip r.2)

/-- One iteration of the `async for item in segment_stream` loop of
`process_stream` in dual-stream mode: a record (`dict`) first drains the
buffer and is then forwarded; a text fragment is appended to the buffer,
which is then drained. -/
def processStreamStep {ρ : Type} (buffer : List Char) (item : Sum String ρ) :
    List (Sum SentenceWithTags ρ) × List Char :=
  match item with
  | Sum.inr record =>
    let r := processDualStreamBuffer buffer
    (r.1.map Sum.inl ++ [Sum.inr record], r.2)
  | Sum.inl fragment =>
    let r := processDualStreamBuffer (buffer ++ fragment.toList)
    (r.1.map Sum.inl, r.2)

/-- The whole `async for` loop threading the buffer. -/
def runStream {ρ : Type} (buffer : List Char) :
    List (Sum String ρ) → List (Sum SentenceWithTags ρ) × List Char
  | [] => ([], buffer)
  | item :: rest =>
    let r1 := processStreamStep buffer item
    let r2 := runStream r1.2 rest
    (r1.1 ++ r2.1, r2.2)

/-- `process_stream` in dual-stream mode over a finite input stream:
`reset()` clears the buffer, every item is processed in order, and the end
of the stream flushes the residue. -/
def process_stream {ρ : Type} (items : List (Sum String ρ)) :
    List (Sum SentenceWithTags ρ) :=
  let r := runStream [] items
  r.1 ++ (flushDualStreamBuffer r.2).map Sum.inl

/-- The `display_processor` stage of `transformers.py`: `think` tag
boundaries display as `(` / `)`; all other units display their own text. -/
def display_processor_stage (sentence : SentenceWithTags) : String :=
  sentence.tags.foldl
    (fun text tag =>
      if tag.name = "think" then
        match tag.state with
        | TagState.tagStart => "("
        | TagState.tagEnd => ")"
        | _ => text
      else text)
    sentence.text

/-- The `SentenceOutput` triplet of the transformer chain, restricted to
its two text fields. -/
structure SentenceOutput where
  displayText : String
  ttsText : String
deriving Repr, DecidableEq

/-- The `tts_filter` stage of `transformers.py`: `think` content gets an
empty TTS text; a unit carrying a dual-stream `tts_text` uses it verbatim;
otherwise the display text goes through the `tts_preprocessor.tts_filter`
projection, passed in here as `filterText` (it is imported from another
module by the source, and its LaTeX handling draws random replacement
phrases).  The display text is forwarded unchanged in every branch. -/
def tts_filter_stage (filterText : String → String) (sentence : SentenceWithTags)
    (display : String) : SentenceOutput :=
  if sentence.tags.any (fun tag => tag.name = "think") then ⟨display, ""⟩
  else
    match sentence.ttsText with
    | some t => ⟨display, t⟩
    | none => ⟨display, filterText display⟩

/-- The concrete dual-stream model output of the claim. -/
def dualInput : String := "<show>**Hello**, world.</show><say>Hi there.</say>"

/-- Claim C5, counterexample: for the dual-stream input
`<show>**Hello**, world.</show><say>Hi there.</say>`, the segmenter
yields one unit with display `"**Hello**, world."` and
`tts_text = "Hi there."`, and the TTS filter stage uses that `tts_text`
verbatim — the result still ends with the period, so it is not
`"Hi there"` as the claim states. -/
theorem dual_stream_period_counterexample :
    processDualStreamBuffer dualInput.toList
      = ([⟨"**Hello**, world.", [⟨"", TagState.noTag⟩], some "Hi there."⟩], [])
    ∧ tts_filter_stage (fun s => s)
        ⟨"**Hello**, world.", [⟨"", TagState.noTag⟩], some "Hi there."⟩
        (display_processor_stage
          ⟨"**Hello**, world.", [⟨"", TagState.noTag⟩], some "Hi there."⟩)
      = ⟨"**Hello**, world.", "Hi there."⟩
    ∧ ("Hi there." : String) ≠ "Hi there" := by
  refine ⟨rfl, rfl, by decide⟩

/-- Claim C5, amended: the pipeline yields exactly one unit; its display
text is `"**Hello**, world."`, unchanged through the display and TTS
filter stages, and its TTS text after the filter stage is `"Hi there."`
verbatim — the dual-stream branch performs no punctuation stripping, so
the trailing period is retained (whatever the traditional-mode projection
`filterText` would do). -/
theorem dual_stream_verbatim_tts (filterText : String → String) :
    processDualStreamBuffer dualInput.toList
      = ([⟨"**Hello**, world.", [⟨"", TagState.noTag⟩], some "Hi there."⟩], [])
    ∧ tts_filter_stage filterText
        ⟨"**Hello**, world.", [⟨"", TagState.noTag⟩], some "Hi there."⟩
        (display_processor_stage
          ⟨"**Hello**, world.", [⟨"", TagState.noTag⟩], some "Hi there."⟩)
      = ⟨"**Hello**, world.", "Hi there."⟩ := by
  exact ⟨rfl, rfl⟩

end SentenceDivider

namespace SentenceDivider

theorem filterMap_getRight_map_inl {σ ρ : Type} (l : List σ) :
    (l.map (Sum.inl : σ → Sum σ ρ)).filterMap Sum.getRight? = [] := by
  induction l with
  | nil => rfl
  | cons u us ih => simpa [Sum.getRight?] using ih

theorem runStream_filterMap_records {ρ : Type} :
    ∀ (items : List (Sum String ρ)) (buffer : List Char),
      (runStream buffer items).1.filterMap Sum.getRight?
        = items.filterMap Sum.getRight? := by
  intro items
  induction items with
  | nil => intro buffer; rfl
  | cons item rest ih =>
    intro buffer
    cases item with
    | inl fragment =>
      simp only [runStream, processStreamStep, List.filterMap_append, ih,
        List.filterMap_cons, filterMap_getRight_map_inl]
      simp [Sum.getRight?]
    | inr record =>
      simp only [runStream, processStreamStep, List.filterMap_append, ih,
        List.filterMap_cons, filterMap_getRight_map_inl]
      simp [Sum.getRight?]

/-- Claim C6: in a mixed stream of text fragments and out-of-band records,
`process_stream` forwards every record unchanged and in its original
position: processing `xs ++ [record] ++ ys` emits exactly the output of
`xs`, then the sentences completed by draining the buffer at the record's
arrival, then the record itself, then the output of `ys` from the drained
state; and the records of the output are exactly the records of the input,
in order. -/
theorem records_forwarded_in_position {ρ : Type} :
    (∀ (xs ys : List (Sum String ρ)) (d : ρ) (buffer : List Char),
      runStream buffer (xs ++ Sum.inr d :: ys)
        = ((runStream buffer xs).1
            ++ ((processDualStreamBuffer (runStream buffer xs).2).1.map Sum.inl
                ++ Sum.inr d
                  :: (runStream (processDualStreamBuffer (runStream buffer xs).2).2 ys).1),
           (runStream (processDualStreamBuffer (runStream buffer xs).2).2 ys).2))
    ∧ ∀ items : List (Sum String ρ),
        (process_stream items).filterMap Sum.getRight?
          = items.filterMap Sum.getRight? := by
  constructor
  · intro xs
    induction xs with
    | nil =>
      intro ys d buffer
      simp [runStream, processStreamStep]
    | cons item rest ih =>
      intro ys d buffer
      simp only [List.cons_append, runStream, List.append_eq]
      rw [ih]
      simp [List.append_assoc]
  · intro items
    simp only [process_stream, List.filterMap_append, runStream_filterMap_records,
      filterMap_getRight_map_inl, List.append_nil]

end SentenceDivider
